import Mathlib

set_option autoImplicit false

namespace PyApprox

/-- A multivariate index: one non-negative integer per input variable.
A column of the `(nvars, nindices)` numpy arrays of `approximate.py` is
embedded as a list of naturals of length `nvars`. -/
abbrev Index := List Nat

/-- Key of an index used for set membership.  Modelled from the spec:
section 4.1 requires `key(index)` to be a canonical collision-free encoding
(`hash_array` itself lives outside `src/`), so the key is the index itself and
membership is structural equality. -/
def hashKey (idx : Index) : Index := idx

/-- Forward neighbor in dimension `d`: increment coordinate `d` by one.
Modelled from the spec: `forward = idx + e_d` (`get_forward_neighbor` lives
outside `src/`). -/
def forwardNeighbor (idx : Index) (d : Nat) : Index :=
  idx.set d (idx.getD d 0 + 1)

/-- Backward neighbor as `expand_basis` actually calls it: `neighbor[ks] -= 1`
with an array argument `ks` decrements the coordinate at every listed position
by one.  Modelled from the spec (`backward_k = forward - e_k`,
`get_backward_neighbor` lives outside `src/`), extended to a list of positions
exactly as numpy fancy-index assignment does; listed positions are distinct in
every call site, so sequential single decrements coincide with it. -/
def backwardNeighborAll (idx : Index) (ks : List Nat) : Index :=
  ks.foldl (fun v k => v.set k (v.getD k 0 - 1)) idx

/-- Positions of the non-zero entries of `index`, i.e. the single array inside
the 1-tuple returned by `np.nonzero(index)`. -/
def activeVars (idx : Index) : List Nat :=
  (List.range idx.length).filter (fun k => idx.getD k 0 ≠ 0)

/-- Total degree of an index; one entry of `indices.sum(axis=0)`. -/
def degreeOf (idx : Index) : Nat := idx.sum

/-- The all-zero (constant) index for `n` variables. -/
def zeroIndex (n : Nat) : Index := List.replicate n 0

/-- Exceptions that `restrict_basis` can raise. -/
inductive RestrictError where
  | assertionError
  | nameError
deriving DecidableEq, Repr

/-- Embedding of `restrict_basis(indices, coefficients, tol)`
(approximate.py lines 836-845).  `I` is the list of positions whose
coefficient magnitude strictly exceeds `tol`, and the columns of `indices` at
these positions are returned.  `J` is the list of positions of zero-degree
columns; `assert J.shape[0] == 1` is an `assertionError` when it fails.  When
the zero-degree position is not in `I`, the fallback branch evaluates the
undefined name `restrict_indices` and therefore raises `NameError` before
anything is concatenated. -/
def restrictBasis (indices : List Index) (coefficients : List ℚ) (tol : ℚ) :
    Except RestrictError (List Index) :=
  let I := (List.range coefficients.length).filter
    (fun i => |coefficients.getD i 0| > tol)
  let restricted := I.filterMap (fun i => indices.get? i)
  let J := (List.range indices.length).filter
    (fun j => degreeOf (indices.getD j []) = 0)
  if J.length = 1 then
    if J.getD 0 0 ∈ I then .ok restricted
    else .error .nameError
  else .error .assertionError

instance {e a : Type} [DecidableEq e] [DecidableEq a] : DecidableEq (Except e a)
  | .ok x, .ok y => decidable_of_iff (x = y) (by simp)
  | .ok _, .error _ => isFalse (by simp)
  | .error _, .ok _ => isFalse (by simp)
  | .error x, .error y => decidable_of_iff (x = y) (by simp)

/-- One candidate admission of `expand_basis`: for the existing index `idx` and
dimension `dd`, try the forward neighbor.  `st` is the pair of the growing
membership set `indices_set` (modelled as a duplicate-free list) and the
accumulated `new_indices`.  The line `for kk in active_vars:` in the source
iterates over the 1-tuple returned by `np.nonzero(index)`, so the loop body
runs exactly once with `kk` bound to the whole array of active positions of
`index`; that is embedded by the singleton list `[activeVars idx]`. -/
def expandStep (idx : Index) (st : List Index × List Index) (dd : Nat) :
    List Index × List Index :=
  let f := forwardNeighbor idx dd
  if f ∈ st.1 then st
  else
    if [activeVars idx].all (fun kk => backwardNeighborAll f kk ∈ st.1) then
      (st.1 ++ [f], st.2 ++ [f])
    else st

/-- Adding one key to the membership set `indices_set`, modelled as a
duplicate-free list: Python set insertion. -/
def addKey (s : List Index) (i : Index) : List Index :=
  if i ∈ s then s else s ++ [i]

/-- The initial `indices_set` of `expand_basis`: the keys of all existing
columns. -/
def buildIndexSet (l : List Index) : List Index := l.foldl addKey []

/-- Embedding of `expand_basis(indices)` (approximate.py lines 848-871).
First `indices_set` is filled with the keys of all existing columns; then for
every existing column (in order) and every dimension (in order) the forward
neighbor is admitted when it is not yet in the set and its check in
`expandStep` passes.  Returns the ordered list of newly admitted indices. -/
def expandBasis (nvars : Nat) (indices : List Index) : List Index :=
  (indices.foldl (fun st idx => (List.range nvars).foldl (expandStep idx) st)
    (buildIndexSet indices, [])).2

/-- Admissibility of an index set, as stated by the spec (glossary and section
4.2): every member has, for each of its active dimensions, its backward
neighbor in that dimension in the set. -/
def isAdmissible (indices : List Index) : Bool :=
  indices.all (fun idx =>
    (activeVars idx).all (fun k => backwardNeighborAll idx [k] ∈ indices))

/-- Per-QoI result entering the multi-QoI merge: the fitted index list of one
QoI and the first column of its fitted coefficient matrix
(`coefs[ii][jj, 0]`). -/
structure QoiResult where
  indices : List Index
  coefs : List ℚ
deriving DecidableEq, Repr

/-- The union index list built by the identical merge loops of
`expanding_basis_pce` (lines 950-956), `cross_validate_pce_degree` (lines
762-768) and `approximate_fixed_pce` (lines 1138-1144): QoIs are visited in
order and each index key not yet in `indices_dict` is appended, so position =
first-seen order, which for structural keys is `unionPos` into this list. -/
def unionIndices (qois : List QoiResult) : List Index :=
  qois.foldl (fun u q => q.indices.foldl addKey u) []

/-- The zero-initialised merged coefficient matrix
`np.zeros((nunique, nqoi))`, modelled as a function from (row, column) to the
entry; entries outside the written shape are never read. -/
def zeroMatrix : Nat → Nat → ℚ := fun _ _ => 0

/-- Single assignment `m[r, c] = v`. -/
def matrixSet (m : Nat → Nat → ℚ) (r c : Nat) (v : ℚ) : Nat → Nat → ℚ :=
  fun r' c' => if r' = r ∧ c' = c then v else m r' c'

/-- Position of a key in the union list: the value `indices_dict[key]`, which
equals the position of the first structurally equal member. -/
def unionPos (u : List Index) (x : Index) : Nat :=
  match u with
  | [] => 0
  | a :: as => if a = x then 0 else unionPos as x + 1

/-- The inner merge loop for QoI `ii`:
`for jj, index in enumerate(indices[ii].T): all_coefs[indices_dict[key], ii] =
coefs[ii][jj, 0]`. -/
def blockUpdate (uni : List Index) (ii : Nat) (q : QoiResult)
    (m : Nat → Nat → ℚ) : Nat → Nat → ℚ :=
  (List.range q.indices.length).foldl
    (fun m' jj => matrixSet m' (unionPos uni (q.indices.getD jj [])) ii
      (q.coefs.getD jj 0)) m

/-- The merged coefficient matrix `all_coefs` built by the merge loops: scatter
every QoI's coefficients into the rows of its own indices' union positions. -/
def mergedCoefs (qois : List QoiResult) : Nat → Nat → ℚ :=
  (List.range qois.length).foldl
    (fun m ii => blockUpdate (unionIndices qois) ii (qois.getD ii ⟨[], []⟩) m)
    zeroMatrix


/-- The sklearn / local model classes named in the `solvers` table of
`fit_linear_model` (lines 578-582). -/
inductive SolverModel where
  | lassoLarsCV
  | lassoLars
  | lassoCV
  | lasso
  | larsCV
  | lars
  | ompCV
  | omp
  | lstsqCV
  | lstsq
deriving DecidableEq, Repr

/-- The `solvers` dictionary: solver type name to the pair
(cross-validated class, plain class). -/
def solversTable (solverType : String) : Option (SolverModel × SolverModel) :=
  if solverType = "lasso" then some (.lassoLarsCV, .lassoLars)
  else if solverType = "lasso_grad" then some (.lassoCV, .lasso)
  else if solverType = "lars" then some (.larsCV, .lars)
  else if solverType = "omp" then some (.ompCV, .omp)
  else if solverType = "lstsq" then some (.lstsqCV, .lstsq)
  else none

/-- Whether a fitted model object has the attribute `cv_score_`: only the
local `LinearLeastSquaresCV` sets it (line 564); the sklearn classes do not.
Modelled from the source, which defines the attribute only there. -/
def hasCvScoreAttr : SolverModel → Bool
  | .lstsqCV => true
  | _ => false

/-- Whether a fitted model object has the attribute `mse_path_`: sklearn's
`LassoLarsCV`, `LassoCV` and `LarsCV` store it; stock
`OrthogonalMatchingPursuitCV` does not (the comment at lines 625-629 says
sklearn must be patched for it), and plain models and the local least-squares
classes never have it.  Modelled from the spec and the source comments about
the sklearn API. -/
def hasMsePathAttr : SolverModel → Bool
  | .lassoLarsCV => true
  | .lassoCV => true
  | .larsCV => true
  | _ => false

/-- The attributes of a fitted model object that `fit_linear_model` and its
two extraction helpers read; their numeric values are produced by the
regression backend, which the spec treats as an external collaborator, so they
are supplied by an oracle. -/
structure FitResult where
  coef : List ℚ
  intercept : ℚ
  alpha : ℚ
  nIter : List ℚ
  nNonzero : ℚ
  cvScoreAttr : ℚ
  msePathScore : ℚ
deriving DecidableEq, Repr

/-- A regularization parameter: a scalar, or for `LarsCV` the pair
`(alpha_, n_iter_[0])`. -/
inductive RegParam where
  | scalar (a : ℚ)
  | pair (a b : ℚ)
deriving DecidableEq, Repr

/-- Embedding of `extract_best_regularization_parameters(res)` (lines
657-670): dispatch on the exact runtime type of the fitted model; any class
without a branch falls through to the bare `raise Exception()`. -/
def extractBestRegularizationParameters (model : SolverModel)
    (res : FitResult) : Except String RegParam :=
  if model = .lassoLarsCV ∨ model = .lstsqCV then .ok (.scalar res.alpha)
  else if model = .larsCV then
    if res.nIter.length = 1 then .ok (.pair res.alpha (res.nIter.getD 0 0))
    else .error "AssertionError"
  else if model = .ompCV then .ok (.scalar res.nNonzero)
  else .error "Exception"

/-- Embedding of `extract_cross_validation_score(linear_model)` (lines
672-678): prefer `cv_score_`, fall back to the `mse_path_` statistic, else
raise. -/
def extractCrossValidationScore (model : SolverModel) (res : FitResult) :
    Except String ℚ :=
  if hasCvScoreAttr model then .ok res.cvScoreAttr
  else if hasMsePathAttr model then .ok res.msePathScore
  else .error "attribute mse_path_ not found"

/-- The keyword options of `fit_linear_model` that its control flow inspects:
whether the key `cv` is present and whether its value is `False`.  Remaining
entries only influence the numeric fit, which the oracle abstracts. -/
structure SolverKwargs where
  hasCv : Bool
  cvIsFalse : Bool
deriving DecidableEq, Repr

/-- Embedding of the control flow of `fit_linear_model(basis_matrix,
train_vals, solver_type, **kwargs)` (lines 575-654).  The numeric work of
`solvers[solver_type][solver_idx](**kwargs).fit(...)` is abstracted by
`oracle`, mapping the chosen model class to the fitted attributes.  Returns
`(coef, cv_score, best_regularization_param)` with `res.intercept_` added to
the first coefficient. -/
def fitLinearModel (oracle : SolverModel → FitResult) (solverType : String)
    (kwargs : SolverKwargs) :
    Except String (List ℚ × Option ℚ × Option RegParam) :=
  match solversTable solverType with
  | none => .error "Solver type not supported"
  | some (cvModel, plainModel) =>
    if solverType = "lars" then
      .error "Currently lars does not exit when alpha starts to grow"
    else
      let model := if kwargs.hasCv = false ∨ kwargs.cvIsFalse = true then
        plainModel else cvModel
      let res := oracle model
      let coef := match res.coef with
        | [] => []
        | c0 :: rest => (c0 + res.intercept) :: rest
      if kwargs.hasCv then
        match extractCrossValidationScore model res with
        | .error e => .error e
        | .ok score =>
          match extractBestRegularizationParameters model res with
          | .error e => .error e
          | .ok rp => .ok (coef, some score, some rp)
      else .ok (coef, none, none)



/-- Modelled from the spec: `compute_hyperbolic_indices(num_vars, degree, 1)`
at strength 1, which the spec (section 4.4) says reduces to plain total
degree: all index vectors of length `num_vars` whose entries sum to at most
`degree`.  The function itself lives outside `src/`; fractional strengths
involve floating-point hyperbolic norms and are not modelled. -/
def computeHyperbolicIndices : Nat → Nat → List Index
  | 0, _ => [[]]
  | n + 1, degree =>
    (List.range (degree + 1)).flatMap (fun k =>
      (computeHyperbolicIndices n (degree - k)).map (fun t => k :: t))

/-- The seed scan of `_expanding_basis_pce` (lines 977-985): starting from
degree 2 with `prev_num_terms = 0`, increase the degree while the term count
stays at or below `max_num_terms`; stop at the first exceeding degree and
return (that degree, its count, the previous count).  `fuel` bounds the loop;
`max_num_terms + 1` steps always suffice because the count at degree `d` is at
least `d + 1`. -/
def seedScan (nvars maxNumTerms : Nat) :
    Nat → Nat → Nat → Option (Nat × Nat × Nat)
  | 0, _, _ => none
  | fuel + 1, degree, prevNumTerms =>
    let numTerms := (computeHyperbolicIndices nvars degree).length
    if numTerms > maxNumTerms then some (degree, numTerms, prevNumTerms)
    else seedScan nvars maxNumTerms fuel (degree + 1) numTerms

/-- The seed degree chosen by `_expanding_basis_pce` (lines 977-989): the
first exceeding degree of the scan, decremented by one exactly when the
overshoot strictly exceeds the undershoot of the previous count (absolute
differences taken in ℤ, as Python takes them over ints). -/
def seedDegree (nvars maxNumTerms : Nat) : Option Nat :=
  match seedScan nvars maxNumTerms (maxNumTerms + 1) 2 0 with
  | none => none
  | some (degree, numTerms, prevNumTerms) =>
    if ((numTerms : ℤ) - maxNumTerms).natAbs >
        ((prevNumTerms : ℤ) - maxNumTerms).natAbs
    then some (degree - 1) else some degree

/-- Loop state of the degree sweep of `_cross_validate_pce_degree` (lines
792-826).  `bestCvScore` models the `np.finfo(np.double).max` sentinel as `⊤`
(fits are assumed to return scores below the float maximum).  `fitted` is a
ghost log of the degrees at which a fit was performed. -/
structure SweepState where
  bestCoef : Option (List ℚ)
  bestCvScore : WithTop ℚ
  bestDegree : Nat
  bestReg : Option ℚ
  prevNumTerms : Nat
  fitted : List Nat
deriving DecidableEq, Repr

/-- One run of the degree loop of `_cross_validate_pce_degree` (lines
800-826) over the listed degrees.  `chi` abstracts
`compute_hyperbolic_indices(num_vars, degree, hcross_strength)` (external
collaborator) and `fit` abstracts the successful return `(coef, cv_score,
reg_param)` of `fit_linear_model`, a function of the index set alone because
the RNG state is restored around every fit.  Stops before fitting when the
100,000-term cap condition holds, and after fitting when the new score fails
to improve on the best and the degree exceeds the best degree by more than
one. -/
def cvSweepGo (chi : Nat → List Index) (fit : List Index → List ℚ × ℚ × ℚ) :
    List Nat → SweepState → SweepState
  | [], st => st
  | d :: rest, st =>
    let numTerms := (chi d).length
    if numTerms > 100000 ∧
        ((100000 : ℤ) - st.prevNumTerms < (numTerms : ℤ) - 100000) then st
    else
      let (coef, score, reg) := fit (chi d)
      let st1 := { st with fitted := st.fitted ++ [d] }
      if ((score : WithTop ℚ) ≥ st1.bestCvScore ∧
          ((d : ℤ) - st1.bestDegree > 1)) then st1
      else
        let st2 := if (score : WithTop ℚ) < st1.bestCvScore then
          { st1 with
            bestCoef := some coef,
            bestCvScore := (score : WithTop ℚ),
            bestDegree := d, bestReg := some reg }
          else st1
        cvSweepGo chi fit rest { st2 with prevNumTerms := numTerms }

/-- The degree sweep of `_cross_validate_pce_degree` over
`range(min_degree, max_degree + 1)`. -/
def crossValidateSweep (chi : Nat → List Index)
    (fit : List Index → List ℚ × ℚ × ℚ) (minDegree maxDegree : Nat) :
    SweepState :=
  cvSweepGo chi fit
    ((List.range (maxDegree + 1 - minDegree)).map (fun i => minDegree + i))
    ⟨none, ⊤, minDegree, none, 0, []⟩

/-- The fitted-degree sequence prescribed by claim C8 as literally stated
(no term cap): fit the degree, stop if the score failed to improve on the
best so far and the degree exceeds the best degree by more than one, else
continue to the next degree. -/
def c8ClaimFitted (score : Nat → ℚ) :
    List Nat → WithTop ℚ → Nat → List Nat
  | [], _, _ => []
  | d :: rest, best, bestD =>
    if ((score d : WithTop ℚ) ≥ best ∧ ((d : ℤ) - bestD > 1)) then [d]
    else if (score d : WithTop ℚ) < best then
      d :: c8ClaimFitted score rest (score d : WithTop ℚ) d
    else d :: c8ClaimFitted score rest best bestD

/-- The fitted-degree sequence prescribed by the amended claim C8: as
`c8ClaimFitted`, but before fitting a degree the sweep stops when the term
count exceeds 100,000 and the overshoot exceeds the previous degree
undershoot (the hard cap of section 4.4 step 2). -/
def c8CapFitted (numTerms : Nat → Nat) (score : Nat → ℚ) :
    List Nat → WithTop ℚ → Nat → Nat → List Nat
  | [], _, _, _ => []
  | d :: rest, best, bestD, prev =>
    if numTerms d > 100000 ∧
        ((100000 : ℤ) - prev < (numTerms d : ℤ) - 100000) then []
    else if ((score d : WithTop ℚ) ≥ best ∧ ((d : ℤ) - bestD > 1)) then [d]
    else if (score d : WithTop ℚ) < best then
      d :: c8CapFitted numTerms score rest (score d : WithTop ℚ) d (numTerms d)
    else d :: c8CapFitted numTerms score rest best bestD (numTerms d)

/-- Exceptions of the expand/restrict search. -/
inductive PceError where
  | restrictErr (e : RestrictError)
  | fuelExhausted
  | unboundLocal
deriving DecidableEq, Repr

/-- State of `_expanding_basis_pce` across its outer/inner loops; every field
is one function-scoped Python variable (lines 998-1070).  `iterBest` holds
`(best_indices_iter, best_coef_iter, best_num_expansion_steps_iter at the
improving fit, best_reg_param_iter)` and is `none` until the first improving
fit, matching Python's unbound locals.  `expandLog` is a ghost log of the
index sets handed to `expand_basis`. -/
structure PceSearchState where
  pceIndices : List Index
  pceCoef : List ℚ
  numTerms : Nat
  bestCvScoreIter : ℚ
  bestStepsIter : Nat
  iterBest : Option (List Index × List ℚ × Nat × ℚ)
  bestCoef : List ℚ
  bestIndices : List Index
  bestCvScore : ℚ
  bestReg : ℚ
  bestSteps : Nat
  it : Nat
  bestIt : Nat
  expandLog : List (List Index)
deriving DecidableEq, Repr

/-- The expansion while-loop of `_expanding_basis_pce` (lines 1024-1029):
repeat `new_indices = expand_basis(pce.indices); pce.set_indices(hstack)`
while `num_expansion_steps` is below both bounds.  Returns (indices,
num_terms, num_expansion_steps, log).  Fuel `maxSteps + 1` makes the
fuel-out branch unreachable because each pass increments `steps`. -/
def expansionGo (nvars maxSteps bestSteps : Nat) :
    Nat → Nat → List Index → Nat → List (List Index) →
      List Index × Nat × Nat × List (List Index)
  | 0, steps, indices, numTerms, log => (indices, numTerms, steps, log)
  | fuel + 1, steps, indices, numTerms, log =>
    if steps < maxSteps ∧ steps < bestSteps then
      let indices' := indices ++ expandBasis nvars indices
      expansionGo nvars maxSteps bestSteps fuel (steps + 1) indices'
        indices'.length (log ++ [indices])
    else (indices, numTerms, steps, log)

/-- The inner while-loop of `_expanding_basis_pce` (lines 1017-1058), one
pass per `max_num_expansion_steps = 1, 2, 3`: restrict the current basis
(the result is assigned to the unused local `indices` and discarded, so only
its exception can escape), expand from `pce.indices`, fit, record the
iteration best on strict improvement, stop once the term count reaches
`max_num_terms` or the step bound reaches 3. -/
def innerLoop (nvars : Nat) (fit : List Index → List ℚ × ℚ × ℚ)
    (maxNumTerms : Nat) (tol : ℚ) :
    Nat → Nat → PceSearchState → Except PceError PceSearchState
  | 0, _, _ => .error .fuelExhausted
  | fuel + 1, maxSteps, st =>
    match restrictBasis st.pceIndices st.pceCoef tol with
    | .error e => .error (.restrictErr e)
    | .ok _ =>
      let (indicesE, numTermsE, stepsE, logE) :=
        expansionGo nvars maxSteps st.bestSteps (maxSteps + 1) 0
          st.pceIndices st.numTerms st.expandLog
      let (coef, score, reg) := fit indicesE
      let st1 := { st with
        pceIndices := indicesE, pceCoef := coef,
        numTerms := numTermsE, expandLog := logE }
      let st2 := if score < st1.bestCvScoreIter then
        { st1 with
          bestCvScoreIter := score, bestStepsIter := stepsE,
          iterBest := some (indicesE, coef, stepsE, reg) }
        else st1
      if numTermsE ≥ maxNumTerms then .ok st2
      else if maxSteps ≥ 3 then .ok st2
      else innerLoop nvars fit maxNumTerms tol fuel (maxSteps + 1) st2

/-- The outer while-loop of `_expanding_basis_pce` (lines 1014-1070): reset
`best_num_expansion_steps_iter` and `max_num_expansion_steps`, run the inner
loop, then adopt the iteration best when `best_cv_score_iter` went strictly
below `best_cv_score`, or stop after two consecutive non-improving
iterations. -/
def outerLoop (nvars : Nat) (fit : List Index → List ℚ × ℚ × ℚ)
    (maxNumTerms : Nat) (tol : ℚ) :
    Nat → PceSearchState → Except PceError PceSearchState
  | 0, _ => .error .fuelExhausted
  | fuel + 1, st =>
    match innerLoop nvars fit maxNumTerms tol 3 1
        { st with bestStepsIter := st.bestSteps } with
    | .error e => .error e
    | .ok st2 =>
      if st2.bestCvScoreIter < st2.bestCvScore then
        match st2.iterBest with
        | none => .error .unboundLocal
        | some (ibIndices, ibCoef, _, ibReg) =>
          outerLoop nvars fit maxNumTerms tol fuel
            { st2 with
              bestCvScore := st2.bestCvScoreIter,
              bestCoef := ibCoef, bestIndices := ibIndices,
              bestSteps := st2.bestStepsIter, bestReg := ibReg,
              bestIt := st2.it, it := st2.it + 1 }
      else if st2.it ≥ st2.bestIt + 2 then .ok st2
      else outerLoop nvars fit maxNumTerms tol fuel
        { st2 with it := st2.it + 1 }

/-- The finalization of `_expanding_basis_pce` (lines 1072-1075):
`I = np.nonzero(best_coef[:, 0])[0]`, keep only the columns and coefficients
at `I`. -/
def finalizePce (indices : List Index) (coef : List ℚ) :
    List Index × List ℚ :=
  let I := (List.range coef.length).filter (fun i => coef.getD i 0 ≠ 0)
  (I.filterMap (fun i => indices.get? i), I.filterMap (fun i => coef.get? i))

/-- Result of `_expanding_basis_pce`: the finalized basis and coefficients,
the best score and regularization parameter, plus ghost views of the
pre-finalization best basis (`preIndices`, `preCoefficients`) and of every
index set handed to `expand_basis` (`expandLog`). -/
structure PceRunResult where
  indices : List Index
  coefficients : List ℚ
  bestCvScore : ℚ
  bestRegParam : ℚ
  expandLog : List (List Index)
  preIndices : List Index
  preCoefficients : List ℚ
deriving DecidableEq, Repr

/-- Embedding of `_expanding_basis_pce(pce, train_samples, train_vals,
hcross_strength=1, ...)` (lines 968-1080) at strength 1.  `fit` abstracts the
successful `(coef, cv_score, reg_param)` return of `fit_linear_model` with
cross-validation enabled, a deterministic function of the index list because
the samples are fixed and the RNG state is restored around each fit.
`maxNumTerms` is the resolved `max_num_terms`, `tol` the `restriction_tol`,
and `outerFuel` bounds the outer loop (unbounded in the source). -/
def expandingBasisPce (nvars : Nat) (fit : List Index → List ℚ × ℚ × ℚ)
    (maxNumTerms : Nat) (tol : ℚ) (outerFuel : Nat) :
    Except PceError PceRunResult :=
  match seedDegree nvars maxNumTerms with
  | none => .error .fuelExhausted
  | some degree =>
    let indices0 := computeHyperbolicIndices nvars degree
    let (coef0, score0, reg0) := fit indices0
    let st0 : PceSearchState :=
      { pceIndices := indices0, pceCoef := coef0, numTerms := 0,
        bestCvScoreIter := score0, bestStepsIter := 3, iterBest := none,
        bestCoef := coef0, bestIndices := indices0, bestCvScore := score0,
        bestReg := reg0, bestSteps := 3, it := 0, bestIt := 0,
        expandLog := [] }
    match outerLoop nvars fit maxNumTerms tol outerFuel st0 with
    | .error e => .error e
    | .ok stf =>
      let fin := finalizePce stf.bestIndices stf.bestCoef
      .ok ⟨fin.1, fin.2, stf.bestCvScore, stf.bestReg, stf.expandLog,
        stf.bestIndices, stf.bestCoef⟩

/-- Fit oracle exhibiting the discarded restriction (claim C3): the initial
fit leaves a coefficient of magnitude 1 on the middle index, which a
restriction tolerance of 1 would prune; later fits never improve. -/
def c3FitOracle (il : List Index) : List ℚ × ℚ × ℚ :=
  if il.length = 3 then ([2, 1, 2], 10, 0)
  else if il.length = 4 then ([2, 2, 2, 2], 20, 0)
  else if il.length = 5 then ([2, 2, 2, 2, 2], 30, 0)
  else (List.replicate il.length 2, 40, 0)

/-- Fit oracle exhibiting the dropped constant term (claim C4): the improving
fit at four terms has coefficient exactly 0 on the constant index. -/
def c4FitOracle (il : List Index) : List ℚ × ℚ × ℚ :=
  if il.length = 3 then ([1, 1, 1], 10, 0)
  else if il.length = 4 then ([0, 1, 1, 1], 5, 0)
  else if il.length = 5 then ([1, 1, 1, 1, 1], 7, 0)
  else if il.length = 6 then ([1, 1, 1, 1, 1, 1], 8, 0)
  else (List.replicate il.length 1, 100, 0)

/-- Fit oracle for a run whose best coefficients are all non-zero: constant
score 10, all coefficients 1. -/
def c4WitnessOracle (il : List Index) : List ℚ × ℚ × ℚ :=
  (List.replicate il.length 1, 10, 0)

/-- The constant-term invariant of the expand/restrict search state: the
working basis, the best basis, the iteration-best basis (when bound) and
every index set handed to `expand_basis` so far contain the all-zero
index. -/
def ZeroInv (nvars : Nat) (st : PceSearchState) : Prop :=
  zeroIndex nvars ∈ st.pceIndices ∧
  zeroIndex nvars ∈ st.bestIndices ∧
  (∀ ib, st.iterBest = some ib → zeroIndex nvars ∈ ib.1) ∧
  (∀ l ∈ st.expandLog, zeroIndex nvars ∈ l)


/-! Helper lemmas about the membership-set fold and the expansion fold. -/

theorem foldl_induction {α β : Type} {P : β → Prop} (g : β → α → β)
    (l : List α) (b : β) (hb : P b)
    (h : ∀ b a, a ∈ l → P b → P (g b a)) : P (l.foldl g b) := by
  induction l generalizing b with
  | nil => exact hb
  | cons x xs ih =>
    exact ih _ (h _ _ (by simp) hb)
      (fun b a ha hb => h b a (List.mem_cons_of_mem _ ha) hb)

theorem mem_addKey_left {x : Index} {s : List Index} (i : Index)
    (hx : x ∈ s) : x ∈ addKey s i := by
  unfold addKey
  split
  · exact hx
  · exact List.mem_append_left _ hx

theorem mem_addKey_self (s : List Index) (i : Index) : i ∈ addKey s i := by
  unfold addKey
  split
  · assumption
  · exact List.mem_append_right _ (by simp)

theorem mem_foldl_addKey_left {x : Index} {l : List Index} {s : List Index}
    (hx : x ∈ s) : x ∈ l.foldl addKey s := by
  induction l generalizing s with
  | nil => exact hx
  | cons a as ih =>
    rw [List.foldl_cons]
    exact ih (mem_addKey_left a hx)

theorem mem_foldl_addKey_right {x : Index} {l : List Index} {s : List Index}
    (hx : x ∈ l) : x ∈ l.foldl addKey s := by
  induction l generalizing s with
  | nil => cases hx
  | cons a as ih =>
    rw [List.foldl_cons]
    rcases List.mem_cons.mp hx with rfl | hx
    · exact mem_foldl_addKey_left (mem_addKey_self s x)
    · exact ih hx

theorem mem_of_mem_foldl_addKey {x : Index} {l : List Index} {s : List Index}
    (hx : x ∈ l.foldl addKey s) : x ∈ s ∨ x ∈ l := by
  induction l generalizing s with
  | nil => exact Or.inl hx
  | cons a as ih =>
    rcases ih hx with h | h
    · unfold addKey at h
      split at h
      · exact Or.inl h
      · rcases List.mem_append.mp h with h | h
        · exact Or.inl h
        · exact Or.inr (by simp at h; simp [h])
    · exact Or.inr (List.mem_cons_of_mem _ h)

theorem expandStep_eq (idx : Index) (st : List Index × List Index) (dd : Nat) :
    expandStep idx st dd = st ∨
    (forwardNeighbor idx dd ∉ st.1 ∧
     backwardNeighborAll (forwardNeighbor idx dd) (activeVars idx) ∈ st.1 ∧
     expandStep idx st dd =
       (st.1 ++ [forwardNeighbor idx dd], st.2 ++ [forwardNeighbor idx dd])) := by
  unfold expandStep
  by_cases h1 : forwardNeighbor idx dd ∈ st.1
  · left; simp [h1]
  · by_cases h2 :
      backwardNeighborAll (forwardNeighbor idx dd) (activeVars idx) ∈ st.1
    · right
      exact ⟨h1, h2, by simp [h1, h2]⟩
    · left; simp [h1, h2]

/-- The run invariant of `expand_basis`: the set contains all original columns
and everything admitted so far; the accumulator is duplicate-free, disjoint
from the original columns, and each admitted index carries its source column,
its dimension, and the membership fact its (buggy, all-active-dimensions)
backward check established. -/
def ExpandInv (nvars : Nat) (indices : List Index)
    (st : List Index × List Index) : Prop :=
  (∀ x ∈ indices, x ∈ st.1) ∧
  (∀ x ∈ st.1, x ∈ indices ∨ x ∈ st.2) ∧
  (∀ x ∈ st.2, x ∈ st.1) ∧
  st.2.Nodup ∧
  (∀ f ∈ st.2, f ∉ indices ∧ ∃ s ∈ indices, ∃ d, d < nvars ∧
    f = forwardNeighbor s d ∧
    backwardNeighborAll f (activeVars s) ∈ st.1)

theorem expandInv_step {nvars : Nat} {indices : List Index}
    {st : List Index × List Index} {idx : Index} {dd : Nat}
    (hidx : idx ∈ indices) (hdd : dd < nvars)
    (hinv : ExpandInv nvars indices st) :
    ExpandInv nvars indices (expandStep idx st dd) := by
  rcases expandStep_eq idx st dd with h | ⟨hnot, hback, h⟩
  · rw [h]; exact hinv
  · rw [h]
    obtain ⟨hA, hB, hC, hD, hF⟩ := hinv
    refine ⟨?_, ?_, ?_, ?_, ?_⟩
    · exact fun x hx => List.mem_append_left _ (hA x hx)
    · intro x hx
      rcases List.mem_append.mp hx with hx | hx
      · rcases hB x hx with h' | h'
        · exact Or.inl h'
        · exact Or.inr (List.mem_append_left _ h')
      · exact Or.inr (List.mem_append_right _ hx)
    · intro x hx
      rcases List.mem_append.mp hx with hx | hx
      · exact List.mem_append_left _ (hC x hx)
      · exact List.mem_append_right _ hx
    · rw [List.nodup_append]
      refine ⟨hD, List.nodup_singleton _, ?_⟩
      intro x hx hy
      simp at hy
      subst hy
      exact hnot (hC _ hx)
    · intro f hf
      rcases List.mem_append.mp hf with hf | hf
      · obtain ⟨h1, s, hs, d, hd, h2, h3⟩ := hF f hf
        exact ⟨h1, s, hs, d, hd, h2, List.mem_append_left _ h3⟩
      · simp at hf
        subst hf
        refine ⟨fun hmem => hnot (hA _ hmem), idx, hidx, dd, hdd, rfl,
          List.mem_append_left _ hback⟩

theorem expandBasis_run_inv (nvars : Nat) (indices : List Index) :
    ExpandInv nvars indices
      (indices.foldl (fun st idx => (List.range nvars).foldl (expandStep idx) st)
        (buildIndexSet indices, [])) := by
  refine foldl_induction _ indices _ ?_ ?_
  · refine ⟨?_, ?_, ?_, List.nodup_nil, ?_⟩
    · exact fun x hx => mem_foldl_addKey_right hx
    · intro x hx
      rcases mem_of_mem_foldl_addKey hx with h | h
      · cases h
      · exact Or.inl h
    · intro x hx; cases hx
    · intro f hf; cases hf
  · intro st idx hidx hinv
    refine foldl_induction _ (List.range nvars) st hinv ?_
    intro st' dd hdd hinv'
    exact expandInv_step hidx (List.mem_range.mp hdd) hinv'

theorem expandBasis_spec (nvars : Nat) (indices : List Index) :
    (expandBasis nvars indices).Nodup ∧
    ∀ f ∈ expandBasis nvars indices,
      f ∉ indices ∧ ∃ s ∈ indices, ∃ d, d < nvars ∧
        f = forwardNeighbor s d ∧
        (backwardNeighborAll f (activeVars s) ∈ indices ∨
         backwardNeighborAll f (activeVars s) ∈ expandBasis nvars indices) := by
  obtain ⟨hA, hB, hC, hD, hF⟩ := expandBasis_run_inv nvars indices
  refine ⟨hD, ?_⟩
  intro f hf
  obtain ⟨h1, s, hs, d, hd, h2, h3⟩ := hF f hf
  exact ⟨h1, s, hs, d, hd, h2, hB _ h3⟩

/-- C1: `restrict_basis` does NOT retain the constant index when its
coefficient magnitude is at or below the tolerance: with one variable, index
set containing the all-zero index, coefficients `[0, 1]` and tolerance `0`,
the branch that is supposed to re-insert the constant term evaluates the
undefined name `restrict_indices` and raises `NameError` instead of returning
a basis at all. -/
theorem restrict_basis_zero_coef_name_error :
    restrictBasis [[0], [1]] [0, 1] 0 =
      Except.error RestrictError.nameError := by decide

/-- C2 counterexample: `S = {(0,0),(1,0),(0,1),(1,1)}` is admissible, yet
`expand_basis(S)` returns `(2,1)` although dimension 1 is active in `(2,1)`
and its backward neighbor `(2,0)` in that dimension is not a member of `S`;
moreover inserting `(2,1)` into `S` yields a set that is not admissible. -/
theorem expand_basis_admissibility_cex :
    isAdmissible [[0, 0], [1, 0], [0, 1], [1, 1]] = true ∧
    [2, 1] ∈ expandBasis 2 [[0, 0], [1, 0], [0, 1], [1, 1]] ∧
    ([2, 1] : Index).getD 1 0 ≠ 0 ∧
    backwardNeighborAll [2, 1] [1] ∉
      ([[0, 0], [1, 0], [0, 1], [1, 1]] : List Index) ∧
    isAdmissible ([[0, 0], [1, 0], [0, 1], [1, 1]] ++ [[2, 1]]) = false := by
  decide

/-- C2 amended: every index returned by `expand_basis(S)` is the forward
neighbor in some dimension `d < nvars` of a member `s` of `S`, is not itself a
member of `S`, and the check the code actually performs holds: the candidate
decremented simultaneously in all dimensions active in its source `s` is a
member of `S` or of the returned list.  Per-dimension backward membership in
`S` alone is not guaranteed (see the counterexample). -/
theorem expand_basis_source_characterization (nvars : Nat)
    (indices : List Index) (f : Index) (hf : f ∈ expandBasis nvars indices) :
    f ∉ indices ∧ ∃ s ∈ indices, ∃ d, d < nvars ∧
      f = forwardNeighbor s d ∧
      (backwardNeighborAll f (activeVars s) ∈ indices ∨
       backwardNeighborAll f (activeVars s) ∈ expandBasis nvars indices) :=
  (expandBasis_spec nvars indices).2 f hf

/-- Witness for the amended C2 theorem at a concrete input. -/
theorem expand_basis_source_characterization_witness :
    [3] ∉ ([[0], [1], [2]] : List Index) ∧
    ∃ s ∈ ([[0], [1], [2]] : List Index), ∃ d, d < 1 ∧
      ([3] : Index) = forwardNeighbor s d ∧
      (backwardNeighborAll [3] (activeVars s) ∈ ([[0], [1], [2]] : List Index) ∨
       backwardNeighborAll [3] (activeVars s) ∈ expandBasis 1 [[0], [1], [2]]) :=
  expand_basis_source_characterization 1 [[0], [1], [2]] [3] (by decide)

/-- C6: `expand_basis(S)` never returns an index structurally equal to a
member of `S`, and never returns two structurally equal indices within one
call. -/
theorem expand_basis_no_duplicates (nvars : Nat) (indices : List Index) :
    (expandBasis nvars indices).Nodup ∧
    ∀ f ∈ expandBasis nvars indices, f ∉ indices := by
  obtain ⟨h1, h2⟩ := expandBasis_spec nvars indices
  exact ⟨h1, fun f hf => (h2 f hf).1⟩

/-- Witness for C6 at a concrete input. -/
theorem expand_basis_no_duplicates_witness :
    (expandBasis 1 [[0], [1], [2]]).Nodup ∧
    [3] ∉ ([[0], [1], [2]] : List Index) := by
  refine ⟨(expand_basis_no_duplicates 1 [[0], [1], [2]]).1, ?_⟩
  exact (expand_basis_no_duplicates 1 [[0], [1], [2]]).2 [3] (by decide)


/-! Lemmas about the multi-QoI merge. -/

theorem getD_mem_of_lt {l : List Index} {j : Nat} (h : j < l.length) :
    l.getD j [] ∈ l := by
  rw [List.getD_eq_getElem _ _ h]
  exact List.getElem_mem h

theorem nodup_getD_inj {l : List Index} (hnd : l.Nodup) {i j : Nat}
    (hi : i < l.length) (hj : j < l.length)
    (h : l.getD i [] = l.getD j []) : i = j := by
  rw [List.getD_eq_getElem _ _ hi, List.getD_eq_getElem _ _ hj] at h
  have h2 : l.get ⟨i, hi⟩ = l.get ⟨j, hj⟩ := by
    simpa [List.get_eq_getElem] using h
  have h3 := hnd.get_inj_iff.mp h2
  exact congrArg Fin.val h3

theorem unionPos_inj {u : List Index} {a b : Index} (ha : a ∈ u) (hb : b ∈ u)
    (h : unionPos u a = unionPos u b) : a = b := by
  induction u with
  | nil => cases ha
  | cons x xs ih =>
    unfold unionPos at h
    by_cases hxa : x = a
    · by_cases hxb : x = b
      · rw [← hxa, hxb]
      · rw [if_pos hxa, if_neg hxb] at h
        exact absurd h.symm (Nat.succ_ne_zero _)
    · by_cases hxb : x = b
      · rw [if_neg hxa, if_pos hxb] at h
        exact absurd h (Nat.succ_ne_zero _)
      · rw [if_neg hxa, if_neg hxb] at h
        have ha' : a ∈ xs := by
          rcases List.mem_cons.mp ha with h' | h'
          · exact absurd h'.symm hxa
          · exact h'
        have hb' : b ∈ xs := by
          rcases List.mem_cons.mp hb with h' | h'
          · exact absurd h'.symm hxb
          · exact h'
        exact ih ha' hb' (Nat.succ_injective h)

theorem mem_foldl_unionFold_left {x : Index} {qois : List QoiResult}
    {s : List Index} (hx : x ∈ s) :
    x ∈ qois.foldl (fun u r => r.indices.foldl addKey u) s := by
  induction qois generalizing s with
  | nil => exact hx
  | cons q qs ih =>
    rw [List.foldl_cons]
    exact ih (mem_foldl_addKey_left hx)

theorem mem_unionFold {qois : List QoiResult} {q : QoiResult} {x : Index}
    (hx : x ∈ q.indices) (hq : q ∈ qois) :
    ∀ s, x ∈ qois.foldl (fun u r => r.indices.foldl addKey u) s := by
  induction hq with
  | head as =>
    intro s
    rw [List.foldl_cons]
    exact mem_foldl_unionFold_left (mem_foldl_addKey_right hx)
  | tail b hmem ih =>
    intro s
    rw [List.foldl_cons]
    exact ih _

theorem mem_unionIndices_of_mem {qois : List QoiResult} {q : QoiResult}
    {x : Index} (hq : q ∈ qois) (hx : x ∈ q.indices) :
    x ∈ unionIndices qois :=
  mem_unionFold hx hq []

theorem mem_of_mem_unionFoldAux {x : Index} (qois : List QoiResult) :
    ∀ s : List Index, x ∈ qois.foldl (fun u r => r.indices.foldl addKey u) s →
      x ∈ s ∨ ∃ q ∈ qois, x ∈ q.indices := by
  induction qois with
  | nil => exact fun s hs => Or.inl hs
  | cons a as ih =>
    intro s hs
    rw [List.foldl_cons] at hs
    rcases ih _ hs with h' | ⟨q, hq, hxq⟩
    · rcases mem_of_mem_foldl_addKey h' with h'' | h''
      · exact Or.inl h''
      · exact Or.inr ⟨a, by simp, h''⟩
    · exact Or.inr ⟨q, List.mem_cons_of_mem _ hq, hxq⟩

theorem mem_of_mem_unionIndices {x : Index} {qois : List QoiResult}
    (hx : x ∈ unionIndices qois) : ∃ q ∈ qois, x ∈ q.indices := by
  rcases mem_of_mem_unionFoldAux qois [] hx with h | h
  · cases h
  · exact h

theorem matrixSet_same (m : Nat → Nat → ℚ) (r c : Nat) (v : ℚ) :
    matrixSet m r c v r c = v := by simp [matrixSet]

theorem matrixSet_other {r' c' r c : Nat} (m : Nat → Nat → ℚ) (v : ℚ)
    (h : ¬(r' = r ∧ c' = c)) : matrixSet m r c v r' c' = m r' c' := by
  simp only [matrixSet, if_neg h]

theorem blockUpdate_other_col {uni : List Index} {ii : Nat} {q : QoiResult}
    {m : Nat → Nat → ℚ} {r c : Nat} (h : c ≠ ii) :
    blockUpdate uni ii q m r c = m r c := by
  unfold blockUpdate
  refine @foldl_induction Nat (Nat → Nat → ℚ) (fun m' => m' r c = m r c) _ _ _ rfl ?_
  intro m' jj hjj hm'
  rw [← hm']
  exact matrixSet_other _ _ (by rintro ⟨h1, h2⟩; exact h h2)

theorem blockUpdate_no_row {uni : List Index} {ii : Nat} {q : QoiResult}
    {m : Nat → Nat → ℚ} {r c : Nat}
    (h : ∀ jj, jj < q.indices.length →
      unionPos uni (q.indices.getD jj []) ≠ r) :
    blockUpdate uni ii q m r c = m r c := by
  unfold blockUpdate
  refine @foldl_induction Nat (Nat → Nat → ℚ) (fun m' => m' r c = m r c) _ _ _ rfl ?_
  intro m' jj hjj hm'
  rw [← hm']
  refine matrixSet_other _ _ ?_
  rintro ⟨h1, h2⟩
  exact h jj (List.mem_range.mp hjj) h1.symm

theorem foldl_matrixStep_congr {r c col : Nat} (row : Nat → Nat)
    (val : Nat → ℚ) (L : List Nat) :
    ∀ m m' : Nat → Nat → ℚ, m r c = m' r c →
      (L.foldl (fun mm jj => matrixSet mm (row jj) col (val jj)) m) r c =
      (L.foldl (fun mm jj => matrixSet mm (row jj) col (val jj)) m') r c := by
  induction L with
  | nil => exact fun m m' h => h
  | cons jj L ih =>
    intro m m' h
    rw [List.foldl_cons, List.foldl_cons]
    refine ih _ _ ?_
    unfold matrixSet
    by_cases hc : r = row jj ∧ c = col
    · simp [hc]
    · simp only [if_neg hc]; exact h

theorem blockUpdate_congr {uni : List Index} {ii : Nat} {q : QoiResult}
    {m m' : Nat → Nat → ℚ} {r c : Nat} (h : m r c = m' r c) :
    blockUpdate uni ii q m r c = blockUpdate uni ii q m' r c :=
  foldl_matrixStep_congr (fun jj => unionPos uni (q.indices.getD jj [])) _ _
    m m' h

theorem foldl_range_hit {col : Nat} (row : Nat → Nat) (val : Nat → ℚ)
    {jj : Nat} :
    ∀ (n : Nat) (m : Nat → Nat → ℚ), jj < n →
    (∀ jj', jj' < n → jj' ≠ jj → row jj' ≠ row jj) →
    ((List.range n).foldl (fun mm kk => matrixSet mm (row kk) col (val kk)) m)
        (row jj) col = val jj := by
  intro n
  induction n with
  | zero => intro m h hd; exact absurd h (by omega)
  | succ n ih =>
    intro m hjj hdist
    rw [List.range_succ, List.foldl_append]
    simp only [List.foldl_cons, List.foldl_nil]
    by_cases heq : jj = n
    · subst heq
      exact matrixSet_same _ _ _ _
    · have hlt : jj < n := by omega
      rw [matrixSet_other]
      · exact ih _ hlt (fun j' h1 h2 => hdist j' (by omega) h2)
      · rintro ⟨h1, h2⟩
        exact hdist n (by omega) (fun h' => heq h'.symm) h1.symm

theorem blockUpdate_hit {uni : List Index} {ii : Nat} {q : QoiResult}
    {m : Nat → Nat → ℚ} {jj : Nat} (hjj : jj < q.indices.length)
    (hrows : ∀ jj', jj' < q.indices.length → jj' ≠ jj →
      unionPos uni (q.indices.getD jj' []) ≠
        unionPos uni (q.indices.getD jj [])) :
    blockUpdate uni ii q m (unionPos uni (q.indices.getD jj [])) ii
      = q.coefs.getD jj 0 :=
  foldl_range_hit (fun kk => unionPos uni (q.indices.getD kk []))
    (fun kk => q.coefs.getD kk 0) q.indices.length m hjj hrows

theorem mergedCoefs_eval {qois : List QoiResult} {r c : Nat}
    (hc : c < qois.length) :
    mergedCoefs qois r c =
      blockUpdate (unionIndices qois) c (qois.getD c ⟨[], []⟩) zeroMatrix r c := by
  unfold mergedCoefs
  obtain ⟨k, hk⟩ : ∃ k, qois.length = (c + 1) + k := ⟨qois.length - (c+1), by omega⟩
  rw [hk, List.range_add, List.foldl_append, List.range_succ,
    List.foldl_append]
  simp only [List.foldl_cons, List.foldl_nil]
  have hpre : ∀ (L : List Nat) (m : Nat → Nat → ℚ), (∀ x ∈ L, x ≠ c) →
      (L.foldl (fun m' ii =>
        blockUpdate (unionIndices qois) ii (qois.getD ii ⟨[], []⟩) m') m) r c
        = m r c := by
    intro L m hL
    refine @foldl_induction Nat (Nat → Nat → ℚ) (fun m' => m' r c = m r c) _ _ _ rfl ?_
    intro m' x hx hm'
    rw [← hm']
    exact blockUpdate_other_col (fun h => hL x hx h.symm)
  rw [hpre ((List.range k).map (fun x => c + 1 + x)) _ ?_]
  · refine blockUpdate_congr ?_
    rw [hpre (List.range c) zeroMatrix ?_]
    intro x hx
    exact Nat.ne_of_lt (List.mem_range.mp hx)
  · intro x hx
    rcases List.mem_map.mp hx with ⟨y, hy, rfl⟩
    omega

/-- C5: the multi-QoI merge preserves per-QoI semantics: for QoI `ii` with
result `q` whose index list is duplicate-free (the Basis invariant), the
merged matrix entry at row `unionPos(idx)` and column `ii` equals `q`'s
original coefficient for each original index `idx` of `q`, and equals exactly
0 at every union index not in `q`'s index list. -/
theorem merge_preserves_per_qoi_semantics (qois : List QoiResult)
    (ii : Nat) (q : QoiResult) (hq : qois.get? ii = some q)
    (hnd : q.indices.Nodup) :
    (∀ jj, jj < q.indices.length →
      mergedCoefs qois (unionPos (unionIndices qois) (q.indices.getD jj [])) ii
        = q.coefs.getD jj 0) ∧
    (∀ idx, idx ∈ unionIndices qois → idx ∉ q.indices →
      mergedCoefs qois (unionPos (unionIndices qois) idx) ii = 0) := by
  have hlt : ii < qois.length := by
    by_contra h
    rw [List.get?_eq_none.mpr (by omega)] at hq
    cases hq
  have hqmem : q ∈ qois := List.get?_mem hq
  have hgetD : qois.getD ii ⟨[], []⟩ = q := by
    rw [List.getD_eq_getElem?_getD, ← List.get?_eq_getElem?, hq]
    rfl
  have hmemuni : ∀ jj, jj < q.indices.length →
      q.indices.getD jj [] ∈ unionIndices qois := by
    intro jj hjj
    exact mem_unionIndices_of_mem hqmem (getD_mem_of_lt hjj)
  have hrowdist : ∀ jj jj', jj < q.indices.length → jj' < q.indices.length →
      jj' ≠ jj →
      unionPos (unionIndices qois) (q.indices.getD jj' []) ≠
        unionPos (unionIndices qois) (q.indices.getD jj []) := by
    intro jj jj' hjj hjj' hne hpos
    have hidx := unionPos_inj (hmemuni jj' hjj') (hmemuni jj hjj) hpos
    exact hne (nodup_getD_inj hnd hjj' hjj hidx)
  constructor
  · intro jj hjj
    rw [mergedCoefs_eval hlt, hgetD]
    exact blockUpdate_hit hjj (fun jj' h1 h2 => hrowdist jj jj' hjj h1 h2)
  · intro idx hidx hnot
    rw [mergedCoefs_eval hlt, hgetD]
    rw [blockUpdate_no_row ?_]
    · rfl
    · intro jj hjj hpos
      have h' := unionPos_inj (hmemuni jj hjj) hidx hpos
      exact hnot (h' ▸ getD_mem_of_lt hjj)

/-- Witness for C5 at a concrete input: two QoIs whose bases overlap in the
index `(1)`. -/
theorem merge_preserves_per_qoi_semantics_witness :
    (∀ jj, jj < 2 →
      mergedCoefs [⟨[[0], [1]], [1, 2]⟩, ⟨[[1], [2]], [3, 4]⟩]
        (unionPos (unionIndices [⟨[[0], [1]], [1, 2]⟩, ⟨[[1], [2]], [3, 4]⟩])
          (([[1], [2]] : List Index).getD jj [])) 1
        = ([3, 4] : List ℚ).getD jj 0) ∧
    (∀ idx, idx ∈ unionIndices [⟨[[0], [1]], [1, 2]⟩, ⟨[[1], [2]], [3, 4]⟩] →
      idx ∉ ([[1], [2]] : List Index) →
      mergedCoefs [⟨[[0], [1]], [1, 2]⟩, ⟨[[1], [2]], [3, 4]⟩]
        (unionPos (unionIndices [⟨[[0], [1]], [1, 2]⟩, ⟨[[1], [2]], [3, 4]⟩])
          idx) 1 = 0) :=
  merge_preserves_per_qoi_semantics
    [⟨[[0], [1]], [1, 2]⟩, ⟨[[1], [2]], [3, 4]⟩] 1 ⟨[[1], [2]], [3, 4]⟩
    (by rfl) (by decide)


/-- C9: for solver type `lasso_grad` with cross-validation enabled (`cv` key
present with a value other than `False`), `fit_linear_model` always raises:
the fitted object is a `LassoCV`, and `extract_best_regularization_parameters`
has no branch for `LassoCV`, so it falls through to `raise Exception()` for
every oracle outcome. -/
theorem lasso_grad_cv_always_raises (oracle : SolverModel → FitResult)
    (kwargs : SolverKwargs) (hcv : kwargs.hasCv = true)
    (hfalse : kwargs.cvIsFalse = false) :
    fitLinearModel oracle "lasso_grad" kwargs = .error "Exception" := by
  simp [fitLinearModel, solversTable, hcv, hfalse, extractCrossValidationScore,
    extractBestRegularizationParameters, hasCvScoreAttr, hasMsePathAttr]

/-- Witness for C9 at a concrete oracle and option set. -/
theorem lasso_grad_cv_always_raises_witness :
    fitLinearModel (fun _ => ⟨[], 0, 0, [], 0, 0, 0⟩) "lasso_grad" ⟨true, false⟩
      = .error "Exception" :=
  lasso_grad_cv_always_raises _ _ rfl rfl

/-- C10: `lars` is listed in the `solvers` table of supported solver types,
yet `fit_linear_model` raises unconditionally for it, for every oracle (so no
fit is ever attempted) and every option set. -/
theorem lars_always_raises (oracle : SolverModel → FitResult)
    (kwargs : SolverKwargs) :
    (solversTable "lars").isSome = true ∧
    fitLinearModel oracle "lars" kwargs =
      .error "Currently lars does not exit when alpha starts to grow" := by
  constructor
  · rfl
  · simp [fitLinearModel, solversTable]


/-! Lemmas about the modelled hyperbolic-cross counts and the seed scan. -/

theorem chi_zero (d : Nat) : computeHyperbolicIndices 0 d = [[]] := rfl

theorem chi_ne_nil (n : Nat) : ∀ d, computeHyperbolicIndices n d ≠ [] := by
  induction n with
  | zero => intro d; simp [computeHyperbolicIndices]
  | succ n ih =>
    intro d h
    rw [computeHyperbolicIndices] at h
    have h0 : (0 : Nat) ∈ List.range (d + 1) := by simp
    have := List.flatMap_eq_nil_iff.mp h 0 h0
    rw [List.map_eq_nil_iff] at this
    exact ih (d - 0) this

theorem length_le_sum {L : List Nat} (h : ∀ x ∈ L, 1 ≤ x) :
    L.length ≤ L.sum := by
  induction L with
  | nil => simp
  | cons a L ih =>
    simp only [List.length_cons, List.sum_cons]
    have h1 := ih (fun x hx => h x (List.mem_cons_of_mem _ hx))
    have h2 := h a (by simp)
    omega

theorem chi_length_lower (n d : Nat) (hn : 1 ≤ n) :
    d + 1 ≤ (computeHyperbolicIndices n d).length := by
  obtain ⟨m, rfl⟩ : ∃ m, n = m + 1 := ⟨n - 1, by omega⟩
  rw [computeHyperbolicIndices, List.length_flatMap]
  have hlen : ((List.range (d + 1)).map
      (fun k => ((computeHyperbolicIndices m (d - k)).map
        (fun t => k :: t)).length)).length = d + 1 := by
    simp
  calc d + 1 = ((List.range (d + 1)).map
        (fun k => ((computeHyperbolicIndices m (d - k)).map
          (fun t => k :: t)).length)).length := hlen.symm
    _ ≤ _ := by
        refine length_le_sum ?_
        intro x hx
        rcases List.mem_map.mp hx with ⟨k, hk, rfl⟩
        rw [List.length_map]
        have := chi_ne_nil m (d - k)
        cases hc : computeHyperbolicIndices m (d - k) with
        | nil => exact absurd hc this
        | cons a l => simp

theorem chi_one_eq (d : Nat) :
    computeHyperbolicIndices 1 d = (List.range (d + 1)).map (fun k => [k]) := by
  rw [computeHyperbolicIndices]
  have : ∀ k : Nat, (computeHyperbolicIndices 0 (d - k)).map
      (fun t => k :: t) = [[k]] := fun k => rfl
  simp only [this]
  rw [List.flatMap_eq_foldl]
  have h : ∀ (L : List Nat) (acc : List Index),
      L.foldl (fun acc k => acc ++ [[k]]) acc = acc ++ L.map (fun k => [k]) := by
    intro L
    induction L with
    | nil => simp
    | cons a L ih => intro acc; simp [ih, List.foldl_cons]
  simpa using h (List.range (d + 1)) []

theorem chi_one_length (d : Nat) :
    (computeHyperbolicIndices 1 d).length = d + 1 := by
  rw [chi_one_eq]
  simp

theorem seedScan_eq (nvars maxNumTerms : Nat) :
    ∀ fuel degree prev d0, degree ≤ d0 → d0 < degree + fuel →
    maxNumTerms < (computeHyperbolicIndices nvars d0).length →
    (∀ d, degree ≤ d → d < d0 →
      (computeHyperbolicIndices nvars d).length ≤ maxNumTerms) →
    seedScan nvars maxNumTerms fuel degree prev =
      some (d0, (computeHyperbolicIndices nvars d0).length,
        if d0 = degree then prev
        else (computeHyperbolicIndices nvars (d0 - 1)).length) := by
  intro fuel
  induction fuel with
  | zero => intro degree prev d0 h1 h2 h3 h4; omega
  | succ fuel ih =>
    intro degree prev d0 h1 h2 h3 h4
    rw [seedScan]
    by_cases hgt : (computeHyperbolicIndices nvars degree).length > maxNumTerms
    · have hd0 : d0 = degree := by
        by_contra hne
        have hlt : degree < d0 := by omega
        exact absurd hgt (not_lt.mpr (h4 degree (le_refl _) hlt))
      subst hd0
      simp [hgt]
    · have hne : d0 ≠ degree := by
        intro h
        subst h
        exact hgt h3
      have hrec := ih (degree + 1) (computeHyperbolicIndices nvars degree).length
        d0 (by omega) (by omega) h3 (fun d hd1 hd2 => h4 d (by omega) hd2)
      simp only [hgt, if_neg, ite_false, if_neg hne]
      rw [hrec]
      by_cases hsucc : d0 = degree + 1
      · rw [if_pos hsucc]
        have hd : d0 - 1 = degree := by omega
        rw [hd]
      · rw [if_neg hsucc]

theorem seed_degree_characterization (nvars maxNumTerms : Nat)
    (hn : 1 ≤ nvars) :
    ∃ dstar, 2 ≤ dstar ∧
      maxNumTerms < (computeHyperbolicIndices nvars dstar).length ∧
      (∀ d, 2 ≤ d → d < dstar →
        (computeHyperbolicIndices nvars d).length ≤ maxNumTerms) ∧
      seedDegree nvars maxNumTerms =
        (if (((computeHyperbolicIndices nvars dstar).length : ℤ) -
              maxNumTerms).natAbs >
            (((if dstar = 2 then (0 : Nat)
               else (computeHyperbolicIndices nvars (dstar - 1)).length) : ℤ) -
              maxNumTerms).natAbs
         then some (dstar - 1) else some dstar) := by
  have hex : ∃ d, 2 ≤ d ∧
      maxNumTerms < (computeHyperbolicIndices nvars d).length := by
    refine ⟨maxNumTerms + 2, by omega, ?_⟩
    have := chi_length_lower nvars (maxNumTerms + 2) hn
    omega
  classical
  let d0 := Nat.find hex
  have hspec := Nat.find_spec hex
  have hmin : ∀ d, d < d0 → ¬(2 ≤ d ∧
      maxNumTerms < (computeHyperbolicIndices nvars d).length) :=
    fun d hd => Nat.find_min hex hd
  have hbound : d0 ≤ maxNumTerms + 2 := by
    refine Nat.find_min' hex ?_
    refine ⟨by omega, ?_⟩
    have := chi_length_lower nvars (maxNumTerms + 2) hn
    omega
  refine ⟨d0, hspec.1, hspec.2, ?_, ?_⟩
  · intro d hd1 hd2
    rcases not_and.mp (hmin d hd2) hd1 with h
    omega
  · unfold seedDegree
    rw [seedScan_eq nvars maxNumTerms (maxNumTerms + 1) 2 0 d0 hspec.1
      (by omega) hspec.2 (fun d hd1 hd2 => by
        rcases not_and.mp (hmin d hd2) hd1 with h
        omega)]
    by_cases h2 : d0 = 2
    · simp [h2]
    · simp [h2]

/-- C7 counterexample: with 2 variables and `max_num_terms = 8`, the seed
scan stops at degree 3 (10 terms) and keeps it because the overshoot (2) does
not strictly exceed the undershoot of degree 2 (6 terms, also distance 2);
the chosen basis exceeds `max_num_terms` although the smaller degree 2 is
non-exceeding and at least as close. -/
theorem expanding_seed_degree_cex :
    seedDegree 2 8 = some 3 ∧
    8 < (computeHyperbolicIndices 2 3).length ∧
    (computeHyperbolicIndices 2 2).length ≤ 8 ∧
    (((computeHyperbolicIndices 2 2).length : ℤ) - 8).natAbs ≤
      (((computeHyperbolicIndices 2 3).length : ℤ) - 8).natAbs := by decide

/-- C7 amended: the seed scan stops at the first degree `dstar ≥ 2` whose
hyperbolic-cross count exceeds `max_num_terms` (counts below `dstar` do not
exceed), and the chosen seed degree is `dstar - 1` exactly when the
undershoot of the previous count (taken as 0 when `dstar = 2`) is strictly
smaller than the overshoot, else `dstar` itself — so on ties, and whenever
degree 2 already overshoots by no more than `max_num_terms`, the seed
exceeds `max_num_terms` even though a smaller degree would not. -/
theorem seed_degree_amended (nvars maxNumTerms : Nat) (hn : 1 ≤ nvars) :
    ∃ dstar, 2 ≤ dstar ∧
      maxNumTerms < (computeHyperbolicIndices nvars dstar).length ∧
      (∀ d, 2 ≤ d → d < dstar →
        (computeHyperbolicIndices nvars d).length ≤ maxNumTerms) ∧
      seedDegree nvars maxNumTerms =
        (if (((computeHyperbolicIndices nvars dstar).length : ℤ) -
              maxNumTerms).natAbs >
            (((if dstar = 2 then (0 : Nat)
               else (computeHyperbolicIndices nvars (dstar - 1)).length) : ℤ) -
              maxNumTerms).natAbs
         then some (dstar - 1) else some dstar) :=
  seed_degree_characterization nvars maxNumTerms hn

/-- Witness for the amended C7 theorem: one variable, `max_num_terms = 2`,
where the scan stops at degree 2 itself (3 terms) and keeps it. -/
theorem seed_degree_amended_witness :
    ∃ dstar, 2 ≤ dstar ∧
      2 < (computeHyperbolicIndices 1 dstar).length ∧
      (∀ d, 2 ≤ d → d < dstar →
        (computeHyperbolicIndices 1 d).length ≤ 2) ∧
      seedDegree 1 2 =
        (if (((computeHyperbolicIndices 1 dstar).length : ℤ) - 2).natAbs >
            (((if dstar = 2 then (0 : Nat)
               else (computeHyperbolicIndices 1 (dstar - 1)).length) : ℤ) -
              2).natAbs
         then some (dstar - 1) else some dstar) :=
  seed_degree_amended 1 2 (by decide)


/-! Lemmas about the degree sweep. -/

theorem cvSweepGo_fitted (chi : Nat → List Index)
    (fit : List Index → List ℚ × ℚ × ℚ) :
    ∀ (L : List Nat) (st : SweepState),
      (cvSweepGo chi fit L st).fitted =
        st.fitted ++ c8CapFitted (fun d => (chi d).length)
          (fun d => (fit (chi d)).2.1) L st.bestCvScore st.bestDegree
          st.prevNumTerms := by
  intro L
  induction L with
  | nil => intro st; simp [cvSweepGo, c8CapFitted]
  | cons d rest ih =>
    intro st
    rw [cvSweepGo, c8CapFitted]
    by_cases hcap : (chi d).length > 100000 ∧
        ((100000 : ℤ) - st.prevNumTerms < ((chi d).length : ℤ) - 100000)
    · rw [if_pos hcap, if_pos hcap]
      simp
    · rw [if_neg hcap, if_neg hcap]
      rcases hf : fit (chi d) with ⟨coef, score, reg⟩
      simp only [hf]
      by_cases hstop : ((score : WithTop ℚ) ≥ st.bestCvScore ∧
          ((d : ℤ) - st.bestDegree > 1))
      · rw [if_pos hstop, if_pos hstop]
      · rw [if_neg hstop, if_neg hstop]
        by_cases himp : (score : WithTop ℚ) < st.bestCvScore
        · rw [if_pos himp, if_pos himp]
          rw [ih]
          simp
        · rw [if_neg himp, if_neg himp]
          rw [ih]
          simp

/-- C8 amended: for every index generator, fit oracle and degree range, the
degrees actually fitted by the sweep of `_cross_validate_pce_degree` are
exactly those prescribed by the rule: proceed degree by degree from
`min_degree` to `max_degree`; before fitting, stop when the term count
exceeds 100,000 and the cap overshoot condition holds; after fitting, stop
exactly when the new score fails to improve on the best so far and the degree
exceeds the best degree by more than one. -/
theorem sweep_fitted_amended (chi : Nat → List Index)
    (fit : List Index → List ℚ × ℚ × ℚ) (minDegree maxDegree : Nat) :
    (crossValidateSweep chi fit minDegree maxDegree).fitted =
      c8CapFitted (fun d => (chi d).length) (fun d => (fit (chi d)).2.1)
        ((List.range (maxDegree + 1 - minDegree)).map (fun i => minDegree + i))
        ⊤ minDegree 0 := by
  rw [crossValidateSweep, cvSweepGo_fitted]
  simp

/-- C8 counterexample: one variable, degrees 100001 to 100003, scores
strictly improving at every fitted degree.  The stated rule (no cap) would
fit all three degrees, but the sweep stops before fitting degree 100002
because the 100,000-term cap triggers, so only degree 100001 is fitted even
though the early-stop rule never fired. -/
theorem sweep_cap_stop_cex :
    (crossValidateSweep (computeHyperbolicIndices 1)
        (fun il => ([], -(il.length : ℚ), 0)) 100001 100003).fitted
      = [100001] ∧
    c8ClaimFitted (fun d => -(((computeHyperbolicIndices 1 d).length : ℚ)))
        [100001, 100002, 100003] ⊤ 100001
      = [100001, 100002, 100003] := by
  constructor
  · rw [crossValidateSweep]
    have hdeg : (List.range (100003 + 1 - 100001)).map (fun i => 100001 + i)
        = [100001, 100002, 100003] := by rfl
    rw [hdeg]
    rw [cvSweepGo]
    simp only [chi_one_length]
    rw [if_neg (by norm_num)]
    rw [if_neg (by
      intro h
      rcases h with ⟨h1, h2⟩
      exact absurd h1 (by simp)), if_pos (by exact WithTop.coe_lt_top _)]
    rw [cvSweepGo]
    simp only [chi_one_length]
    rw [if_pos (by norm_num)]
    simp
  · rw [c8ClaimFitted]
    rw [if_neg (by
      intro h
      exact absurd h.1 (by simp)), if_pos (by exact WithTop.coe_lt_top _)]
    rw [c8ClaimFitted]
    rw [if_neg (by
      intro h
      rcases h with ⟨h1, h2⟩
      rw [ge_iff_le, WithTop.coe_le_coe] at h1
      simp only [chi_one_length] at h1
      norm_num at h1), if_pos (by
        rw [WithTop.coe_lt_coe]
        simp only [chi_one_length]
        norm_num)]
    rw [c8ClaimFitted]
    rw [if_neg (by
      intro h
      rcases h with ⟨h1, h2⟩
      rw [ge_iff_le, WithTop.coe_le_coe] at h1
      simp only [chi_one_length] at h1
      norm_num at h1), if_pos (by
        rw [WithTop.coe_lt_coe]
        simp only [chi_one_length]
        norm_num)]
    rw [c8ClaimFitted]


/-! Theorems about the expand/restrict search. -/

theorem finalizePce_keeps (indices : List Index) (coef : List ℚ) (j : Nat)
    (hj : j < indices.length) (hjc : j < coef.length)
    (hnz : coef.getD j 0 ≠ 0) :
    indices.getD j [] ∈ (finalizePce indices coef).1 := by
  unfold finalizePce
  apply List.mem_filterMap.mpr
  refine ⟨j, ?_, ?_⟩
  · refine List.mem_filter.mpr ⟨List.mem_range.mpr hjc, ?_⟩
    simpa using hnz
  · rw [List.get?_eq_getElem?, List.getElem?_eq_getElem hj,
      List.getD_eq_getElem _ _ hj]

/-- C3: evaluation of `_expanding_basis_pce` at a one-variable input with
`restriction_tol = 1` whose initial fit leaves the prunable coefficient 1 on
the middle index: the first index set handed to `expand_basis` is the full
unrestricted basis `{(0),(1),(2)}` of the current best, even though
`restrict_basis` of that best basis returns `{(0),(2)}` — the restriction is
computed into the local `indices` and then discarded. -/
theorem expanding_basis_ignores_restriction_cex :
    (expandingBasisPce 1 c3FitOracle 2 1 10).toOption.map
      (fun r => (r.expandLog.getD 0 [],
        restrictBasis r.preIndices r.preCoefficients 1))
      = some ([[0], [1], [2]], Except.ok [[0], [2]]) ∧
    ([[0], [1], [2]] : List Index) ≠ [[0], [2]] := by decide

/-- C4 counterexample: a run of `_expanding_basis_pce` (one variable,
`max_num_terms = 2`, `restriction_tol = -1`) that returns normally, whose
best coefficients are `[0, 1, 1, 1]` over `{(0),(1),(2),(3)}`: finalization
drops the zero-coefficient constant term, so the returned basis does not
contain the all-zero index. -/
theorem expanding_basis_drops_constant_cex :
    (expandingBasisPce 1 c4FitOracle 2 (-1) 10).toOption.map
      (fun r => r.indices.contains (zeroIndex 1)) = some false := by decide


theorem zeroIndex_mem_chi (n : Nat) : ∀ d, zeroIndex n ∈ computeHyperbolicIndices n d := by
  induction n with
  | zero => intro d; simp [computeHyperbolicIndices, zeroIndex]
  | succ n ih =>
    intro d
    rw [computeHyperbolicIndices]
    have hz : zeroIndex (n + 1) = 0 :: zeroIndex n := rfl
    rw [hz]
    apply List.mem_flatMap.mpr
    refine ⟨0, by simp, ?_⟩
    exact List.mem_map.mpr ⟨zeroIndex n, by simpa using ih d, rfl⟩

theorem expansionGo_zero (nvars maxSteps bestSteps : Nat) :
    ∀ (fuel steps : Nat) (indices : List Index) (numTerms : Nat)
      (log : List (List Index)),
      zeroIndex nvars ∈ indices → (∀ l ∈ log, zeroIndex nvars ∈ l) →
      zeroIndex nvars ∈
        (expansionGo nvars maxSteps bestSteps fuel steps indices numTerms
          log).1 ∧
      ∀ l ∈ (expansionGo nvars maxSteps bestSteps fuel steps indices numTerms
          log).2.2.2, zeroIndex nvars ∈ l := by
  intro fuel
  induction fuel with
  | zero =>
    intro steps indices numTerms log h1 h2
    exact ⟨h1, h2⟩
  | succ fuel ih =>
    intro steps indices numTerms log h1 h2
    rw [expansionGo]
    by_cases hc : steps < maxSteps ∧ steps < bestSteps
    · rw [if_pos hc]
      refine ih _ _ _ _ ?_ ?_
      · exact List.mem_append_left _ h1
      · intro l hl
        rcases List.mem_append.mp hl with hl | hl
        · exact h2 l hl
        · simp at hl
          subst hl
          exact h1
    · rw [if_neg hc]
      exact ⟨h1, h2⟩

theorem innerLoop_zero (nvars : Nat) (fit : List Index → List ℚ × ℚ × ℚ)
    (maxNumTerms : Nat) (tol : ℚ) :
    ∀ (fuel maxSteps : Nat) (st st' : PceSearchState),
      innerLoop nvars fit maxNumTerms tol fuel maxSteps st = .ok st' →
      ZeroInv nvars st → ZeroInv nvars st' := by
  intro fuel
  induction fuel with
  | zero =>
    intro maxSteps st st' h
    simp [innerLoop] at h
  | succ fuel ih =>
    intro maxSteps st st' h hinv
    obtain ⟨h1, h2, h3, h4⟩ := hinv
    rw [innerLoop] at h
    split at h
    · cases h
    · dsimp only at h
      have hz := expansionGo_zero nvars maxSteps st.bestSteps (maxSteps + 1) 0
        st.pceIndices st.numTerms st.expandLog h1 h4
      split at h
      · cases h
        split
        · exact ⟨hz.1, h2, by
            intro ib hib
            simp at hib
            rw [← hib]
            exact hz.1, hz.2⟩
        · exact ⟨hz.1, h2, h3, hz.2⟩
      · split at h
        · cases h
          split
          · exact ⟨hz.1, h2, by
              intro ib hib
              simp at hib
              rw [← hib]
              exact hz.1, hz.2⟩
          · exact ⟨hz.1, h2, h3, hz.2⟩
        · refine ih _ _ _ h ?_
          split
          · exact ⟨hz.1, h2, by
              intro ib hib
              simp at hib
              rw [← hib]
              exact hz.1, hz.2⟩
          · exact ⟨hz.1, h2, h3, hz.2⟩

theorem outerLoop_zero (nvars : Nat) (fit : List Index → List ℚ × ℚ × ℚ)
    (maxNumTerms : Nat) (tol : ℚ) :
    ∀ (fuel : Nat) (st st' : PceSearchState),
      outerLoop nvars fit maxNumTerms tol fuel st = .ok st' →
      ZeroInv nvars st → ZeroInv nvars st' := by
  intro fuel
  induction fuel with
  | zero =>
    intro st st' h
    simp [outerLoop] at h
  | succ fuel ih =>
    intro st st' h hinv
    rw [outerLoop] at h
    split at h
    · cases h
    · rename_i ist heq
      have hist : ZeroInv nvars ist :=
        innerLoop_zero nvars fit maxNumTerms tol 3 1 _ _ heq
          ⟨hinv.1, hinv.2.1, hinv.2.2.1, hinv.2.2.2⟩
      split at h
      · split at h
        · cases h
        · rename_i ib heq2
          refine ih _ _ h ?_
          rcases ib with ⟨ibIndices, ibCoef, ibSteps, ibReg⟩
          exact ⟨hist.1, hist.2.2.1 _ heq2, hist.2.2.1, hist.2.2.2⟩
      · split at h
        · cases h
          exact hist
        · exact ih _ _ h ⟨hist.1, hist.2.1, hist.2.2.1, hist.2.2.2⟩

/-- C4 amended: for every run of `_expanding_basis_pce` that returns, the
pre-finalization best basis and every index set handed to `expand_basis`
during the search (the seed included, as the first such set) contain the
all-zero index, and the finalized returned basis contains the all-zero index
whenever the best basis carries it at a position whose final best coefficient
is non-zero; when that coefficient is exactly zero the constant term is
dropped by the finalization (see the counterexample). -/
theorem expanding_basis_constant_invariant
    (nvars : Nat) (fit : List Index → List ℚ × ℚ × ℚ) (maxNumTerms : Nat)
    (tol : ℚ) (fuel : Nat) (r : PceRunResult)
    (hr : expandingBasisPce nvars fit maxNumTerms tol fuel = .ok r) :
    zeroIndex nvars ∈ r.preIndices ∧
    (∀ l ∈ r.expandLog, zeroIndex nvars ∈ l) ∧
    ∀ j, j < r.preIndices.length → j < r.preCoefficients.length →
      r.preIndices.getD j [] = zeroIndex nvars →
      r.preCoefficients.getD j 0 ≠ 0 →
      zeroIndex nvars ∈ r.indices := by
  unfold expandingBasisPce at hr
  split at hr
  · cases hr
  · rename_i degree hseed
    dsimp only at hr
    split at hr
    · cases hr
    · rename_i stf heqout
      have hst0 : ZeroInv nvars
          { pceIndices := computeHyperbolicIndices nvars degree,
            pceCoef := (fit (computeHyperbolicIndices nvars degree)).1,
            numTerms := 0,
            bestCvScoreIter := (fit (computeHyperbolicIndices nvars degree)).2.1,
            bestStepsIter := 3, iterBest := none,
            bestCoef := (fit (computeHyperbolicIndices nvars degree)).1,
            bestIndices := computeHyperbolicIndices nvars degree,
            bestCvScore := (fit (computeHyperbolicIndices nvars degree)).2.1,
            bestReg := (fit (computeHyperbolicIndices nvars degree)).2.2,
            bestSteps := 3, it := 0, bestIt := 0, expandLog := [] } := by
        refine ⟨zeroIndex_mem_chi nvars degree, zeroIndex_mem_chi nvars degree,
          ?_, ?_⟩
        · intro ib hib
          cases hib
        · intro l hl
          cases hl
      have hstf := outerLoop_zero nvars fit maxNumTerms tol fuel _ _ heqout hst0
      cases hr
      refine ⟨hstf.2.1, hstf.2.2.2, ?_⟩
      intro j hj hjc hz hnz
      have hmem := finalizePce_keeps stf.bestIndices stf.bestCoef j hj hjc hnz
      rw [hz] at hmem
      exact hmem

/-- Witness for the amended C4 theorem: a run with all coefficients 1 keeps
the constant term in its pre-finalization best basis. -/
theorem expanding_basis_constant_invariant_witness :
    zeroIndex 1 ∈
      (⟨[[0], [1], [2]], [1, 1, 1], 10, 0,
        [[[0], [1], [2]], [[0], [1], [2], [3]], [[0], [1], [2], [3], [4]]],
        [[0], [1], [2]], [1, 1, 1]⟩ : PceRunResult).preIndices :=
  (expanding_basis_constant_invariant 1 c4WitnessOracle 2 (-1) 10 _
    (by decide)).1

end PyApprox
